import Mathlib

/-!
Verification of the generic textual-integer conversion engine of
`newlib/libc/tinystdio/strtoi.h` (picolibc).  The C file is a template that
is instantiated once per integer width/signedness pair (`strtoi_type`,
`strtoi_signed`, `strtoi_min`, `strtoi_max`).  We embed it shallowly:

* a `Kind` records the bit width and signedness of the instantiated type;
* machine arithmetic of the instantiated type is modelled by `wrap`,
  two's-complement reduction modulo `2 ^ bits` (the unsigned instantiation
  wraps by the C standard; the signed instantiation relies on the usual
  two's-complement behaviour, and every value produced after a signed
  wrap is discarded by the overflow clamp);
* the input C string is a `List Nat` of bytes; reading past the end yields
  the NUL sentinel `0`, exactly as the terminated C string does.  `digval 0
  = 208`, which is `≥ base` for every base the engine can run with
  (`base ≤ 36`), so the accumulation loop always stops at the sentinel and
  never reads past it; the `[]` case of `scanLoop` is therefore exact.
* `strtoi` returns the value, the number of consumed characters
  (`*endptr - nptr` in the C code) and a status derived from `errno` /
  `FLAG_ANY` as described in the specification (`Ok`,
  `InvalidConfiguration`, `NoDigitsConsumed`, `OutOfRange`).
-/

/-- Parse status, following the specification's `ParseStatus`. -/
inductive Status where
  | Ok : Status
  | InvalidConfiguration : Status
  | NoDigitsConsumed : Status
  | OutOfRange : Status
deriving DecidableEq

/-- Parse result: value, number of consumed characters, status. -/
structure Result where
  value : Int
  consumed : Nat
  status : Status
deriving DecidableEq

/-- A width kind: the concrete integer type the engine is instantiated at. -/
structure Kind where
  bits : Nat
  signed : Bool
deriving DecidableEq

/-- `strtoi_max` of the instantiated type. -/
def kmax (k : Kind) : Int :=
  if k.signed then 2 ^ (k.bits - 1) - 1 else 2 ^ k.bits - 1

/-- `strtoi_min` of the instantiated type. -/
def kmin (k : Kind) : Int :=
  if k.signed then -(2 ^ (k.bits - 1)) else 0

/-- Reduce an unbounded integer to the value the instantiated machine type
holds: two's-complement reduction modulo `2 ^ bits`. -/
def wrap (k : Kind) (x : Int) : Int :=
  if k.signed = true ∧ (2 : Int) ^ (k.bits - 1) ≤ x % 2 ^ k.bits then
    x % 2 ^ k.bits - 2 ^ k.bits
  else x % 2 ^ k.bits

/-- `ISSPACE` from the source: `'\011' <= c && c <= '\015' || c == ' '`. -/
def ISSPACE (c : Nat) : Bool :=
  (9 ≤ c && c ≤ 13) || c == 32

/-- The digit value the accumulation loop computes from the byte `i`:
`if (TOLOW(i) >= 'a') i = TOLOW(i) + (('0' - 'a') + 10); i -= '0';`
with `TOLOW(c) = c | ('a' - 'A')` and `i` an `unsigned char`. -/
def digval (c : Nat) : Nat :=
  let t := c ||| 32
  if 97 ≤ t then t - 87 else (c + 208) % 256

/-- Byte of the canonical rendering of digit value `d`
(`'0'..'9'` then lowercase `'a'..'z'`). -/
def digitChar (d : Nat) : Nat :=
  if d < 10 then 48 + d else 87 + d

/-- The leading-whitespace skip `do { i = *s++; } while (ISSPACE(i));`:
returns the number of skipped bytes and the remaining input. -/
def skipSp : List Nat → Nat × List Nat
  | [] => (0, [])
  | c :: r => if ISSPACE c then ((skipSp r).1 + 1, (skipSp r).2) else (0, c :: r)

/-- State after whitespace, sign and base prefix handling: the effective
base, the negative flag, whether a `0x`/`0X` prefix was consumed (in which
case the C code moves `nptr` to the byte after the leading `0`), the index
where the digit loop starts and the remaining input. -/
structure FrontSt where
  base : Nat
  neg : Bool
  hex : Bool
  start : Nat
  rest : List Nat
deriving DecidableEq

/-- Sign parsing and the leading-`0` base detection of `strtoi` (source
lines 83-108), applied to the input left after the whitespace skip; the
`start` field is the offset into that remaining input. -/
def frontCore (r0 : List Nat) (base0 : Nat) : FrontSt :=
  let c0 := r0.headD 0
  let neg := decide (c0 = 45)
  let hasSign := c0 = 45 ∨ c0 = 43
  let r1 := if hasSign then r0.tail else r0
  let p1 := if hasSign then 1 else 0
  let c1 := r1.headD 0
  let c2 := r1.tail.headD 0
  if c1 = 48 ∧ (c2 ||| 32) = 120 ∧ (base0 = 0 ∨ base0 = 16) then
    ⟨16, neg, true, p1 + 2, r1.tail.tail⟩
  else
    ⟨if base0 = 0 then (if c1 = 48 then 8 else 10) else base0, neg, false, p1, r1⟩

/-- Whitespace skipping, sign parsing and the leading-`0` base detection of
`strtoi`, lines 78-108 of the source; `start` is the absolute index where
the digit loop begins. -/
def front (s : List Nat) (base0 : Nat) : FrontSt :=
  let f := frontCore (skipSp s).2 base0
  ⟨f.base, f.neg, f.hex, (skipSp s).1 + f.start, f.rest⟩

/-- State of the digit accumulation loop. -/
structure ScanSt where
  cur : Nat
  val : Int
  any : Bool
  oflow : Bool
deriving DecidableEq

/-- The digit accumulation loop (`for(;;) { ... }`, source lines 128-155):
classify the current byte, stop when its value reaches the base, otherwise
check the cutoff/cutlim overflow condition, accumulate with machine
arithmetic and advance.  `cur` is the index of the current byte in the
whole input. -/
def scanLoop (k : Kind) (b : Nat) (cutoff : Int) (cutlim : Nat) :
    List Nat → Nat → Int → Bool → Bool → ScanSt
  | [], cur, val, any, oflow => ⟨cur, val, any, oflow⟩
  | c :: r, cur, val, any, oflow =>
    if digval c < b then
      scanLoop k b cutoff cutlim r (cur + 1)
        (wrap k (val * (b : Int) + (digval c : Int))) true
        (oflow || decide (cutoff < val) ||
          (decide (val = cutoff) && decide (cutlim < digval c)))
    else ⟨cur, val, any, oflow⟩

/-- `ucutoff`: the largest accumulable magnitude, source lines 110-121.
For a signed kind it is `-(strtoi_utype)strtoi_min` when the sign was
negative and `strtoi_max` otherwise; for an unsigned kind `strtoi_max`. -/
def ucutoff (k : Kind) (neg : Bool) : Nat :=
  if k.signed then (if neg then 2 ^ (k.bits - 1) else 2 ^ (k.bits - 1) - 1)
  else 2 ^ k.bits - 1

/-- Finalization, source lines 157-172: apply the sign, clamp on overflow,
compute the consumed count (`*endptr - nptr`) and the status. -/
def finalizeRes (k : Kind) (f : FrontSt) (st : ScanSt) : Result :=
  let v1 := if f.neg then wrap k (-st.val) else st.val
  let v2 := if st.oflow then
      (if k.signed then wrap k (kmax k + (if f.neg then 1 else 0)) else kmax k)
    else v1
  ⟨v2, if st.any then st.cur else (if f.hex then f.start - 1 else 0),
    if st.oflow then .OutOfRange
    else if st.any then .Ok else .NoDigitsConsumed⟩

/-- The conversion engine `strtoi` of the source, as the specification's
`parse_integer`: base validation, front end, digit loop, finalization. -/
def strtoi (k : Kind) (s : List Nat) (ibase : Int) : Result :=
  if ibase < 0 ∨ 36 < ibase ∨ ibase = 1 then ⟨0, 0, .InvalidConfiguration⟩
  else
    let f := front s ibase.toNat
    let uc := ucutoff k f.neg
    finalizeRes k f
      (scanLoop k f.base ((uc / f.base : Nat) : Int) (uc % f.base)
        f.rest f.start 0 false false)

/-- Whether the parsed sign is negative: the byte examined by the sign
`switch` is `'-'`. -/
def parsedNeg (s : List Nat) : Bool :=
  decide ((skipSp s).2.headD 0 = 45)

/-- Fuel-driven canonical base-`b` digit expansion (most significant digit
first); with fuel at least `n` it computes the usual expansion. -/
def natDigitsF : Nat → Nat → Nat → List Nat
  | 0, _, n => [n]
  | fuel + 1, b, n => if n < b then [n] else natDigitsF fuel b (n / b) ++ [n % b]

/-- Canonical digit values of `n` in base `b`, most significant first;
`[0]` for `n = 0`. -/
def natDigits (b n : Nat) : List Nat := natDigitsF n b n

/-- The canonical rendering of `v` in base `b`: a `'-'` sign first for
negative `v`, then the digits of `|v|` with no redundant leading zeros. -/
def render (b : Nat) (v : Int) : List Nat :=
  (if v < 0 then [45] else []) ++ (natDigits b v.natAbs).map digitChar

/-- The 32-bit unsigned instantiation. -/
def K32u : Kind := ⟨32, false⟩

/-- The 32-bit signed instantiation. -/
def K32s : Kind := ⟨32, true⟩

/-! ### Character classification lemmas -/

theorem digval_digitChar : ∀ d : Nat, d < 36 → digval (digitChar d) = d := by
  decide

theorem digval_nul : digval 0 = 208 := by decide

theorem digitChar_not_space : ∀ d : Nat, d < 36 → ISSPACE (digitChar d) = false := by
  decide

theorem digitChar_ne_plus : ∀ d : Nat, d < 36 → digitChar d ≠ 43 := by decide

theorem digitChar_ne_minus : ∀ d : Nat, d < 36 → digitChar d ≠ 45 := by decide

theorem digitChar_eq_48 : ∀ d : Nat, d < 36 → digitChar d = 48 → d = 0 := by decide

theorem digitChar_lor_ne_x : ∀ d : Nat, d < 36 → d ≠ 33 → (digitChar d ||| 32) ≠ 120 := by
  decide

/-! ### `wrap` lemmas -/

theorem wrap_zero (k : Kind) : wrap k 0 = 0 := by
  have h1 : (0 : Int) < 2 ^ (k.bits - 1) := by positivity
  simp [wrap, not_le.2 h1]

theorem two_pow_split (k : Kind) (hb : 1 ≤ k.bits) :
    (2 : Int) ^ k.bits = 2 ^ (k.bits - 1) * 2 := by
  conv_lhs => rw [show k.bits = k.bits - 1 + 1 from (Nat.sub_add_cancel hb).symm]
  rw [pow_succ]

theorem wrap_eq_self_of_nonneg (k : Kind) (x : Int) (h0 : 0 ≤ x)
    (hs : k.signed = true → x < 2 ^ (k.bits - 1))
    (hu : k.signed = false → x < 2 ^ k.bits) : wrap k x = x := by
  have hbound : x < 2 ^ k.bits := by
    cases hsk : k.signed with
    | false => exact hu hsk
    | true =>
      calc x < 2 ^ (k.bits - 1) := hs hsk
        _ ≤ 2 ^ k.bits := pow_le_pow_right₀ (by norm_num) (Nat.sub_le _ _)
  have hm : x % (2 : Int) ^ k.bits = x := Int.emod_eq_of_lt h0 hbound
  unfold wrap
  rw [hm]
  split
  · next hcond => exact absurd (hs hcond.1) (not_lt.2 hcond.2)
  · rfl

theorem wrap_eq_self_of_neg (k : Kind) (x : Int) (hs : k.signed = true)
    (hb : 1 ≤ k.bits) (h1 : -(2 ^ (k.bits - 1)) ≤ x) (h2 : x < 0) :
    wrap k x = x := by
  have hpow := two_pow_split k hb
  have h01 : (0 : Int) ≤ 2 ^ (k.bits - 1) := by positivity
  have hge : -(2 : Int) ^ k.bits ≤ x := by nlinarith
  have hm : x % (2 : Int) ^ k.bits = x + 2 ^ k.bits := by
    have heq : (x + 2 ^ k.bits) % (2 : Int) ^ k.bits = x % 2 ^ k.bits := by
      simp [Int.add_mul_emod_self_left]
    rw [← heq, Int.emod_eq_of_lt (by linarith) (by linarith)]
  unfold wrap
  rw [hm]
  have hcond : (2 : Int) ^ (k.bits - 1) ≤ x + 2 ^ k.bits := by nlinarith
  rw [if_pos ⟨hs, hcond⟩]
  ring

theorem wrap_add_pow (k : Kind) (x t : Int) :
    wrap k (x + 2 ^ k.bits * t) = wrap k x := by
  unfold wrap
  rw [Int.add_mul_emod_self_left]

theorem wrap_rep (k : Kind) (x : Int) : ∃ t : Int, wrap k x = x + 2 ^ k.bits * t := by
  unfold wrap
  split
  · exact ⟨-(x / 2 ^ k.bits) - 1, by rw [Int.emod_def]; ring⟩
  · exact ⟨-(x / 2 ^ k.bits), by rw [Int.emod_def]; ring⟩

theorem wrap_neg_wrap (k : Kind) (x : Int) : wrap k (-wrap k x) = wrap k (-x) := by
  obtain ⟨t, ht⟩ := wrap_rep k x
  rw [ht]
  have : -(x + 2 ^ k.bits * t) = -x + 2 ^ k.bits * (-t) := by ring
  rw [this, wrap_add_pow]

theorem wrap_muladd (k : Kind) (x c d : Int) :
    wrap k (wrap k x * c + d) = wrap k (x * c + d) := by
  obtain ⟨t, ht⟩ := wrap_rep k x
  rw [ht]
  have : (x + 2 ^ k.bits * t) * c + d = x * c + d + 2 ^ k.bits * (t * c) := by ring
  rw [this, wrap_add_pow]

theorem wrap_kmax_succ (k : Kind) (hs : k.signed = true) (hb : 1 ≤ k.bits) :
    wrap k (kmax k + 1) = kmin k := by
  have hpow := two_pow_split k hb
  have h01 : (0 : Int) < 2 ^ (k.bits - 1) := by positivity
  unfold wrap kmax kmin
  simp only [hs, if_true]
  have hval : (2 : Int) ^ (k.bits - 1) - 1 + 1 = 2 ^ (k.bits - 1) := by ring
  rw [hval]
  have hm : (2 : Int) ^ (k.bits - 1) % 2 ^ k.bits = 2 ^ (k.bits - 1) := by
    apply Int.emod_eq_of_lt (by positivity)
    nlinarith
  rw [hm, if_pos ⟨trivial, le_refl _⟩]
  nlinarith

/-! ### Whitespace-skip lemmas -/

theorem skipSp_cons_space (w : Nat) (s : List Nat) (hw : ISSPACE w = true) :
    skipSp (w :: s) = ((skipSp s).1 + 1, (skipSp s).2) := by
  simp [skipSp, hw]

theorem skipSp_of_head (l : List Nat) (h : ISSPACE (l.headD 0) = false) :
    skipSp l = (0, l) := by
  cases l with
  | nil => rfl
  | cons c r =>
    simp only [List.headD_cons] at h
    simp [skipSp, h]

theorem skipSp_append (ws l : List Nat) (h : ∀ c ∈ ws, ISSPACE c = true) :
    skipSp (ws ++ l) = (ws.length + (skipSp l).1, (skipSp l).2) := by
  induction ws with
  | nil => simp
  | cons c r ih =>
    have hc : ISSPACE c = true := h c (List.mem_cons_self c r)
    have ih2 := ih (fun x hx => h x (List.mem_cons_of_mem c hx))
    rw [List.cons_append, skipSp_cons_space c (r ++ l) hc, ih2]
    simp only [List.length_cons, Prod.mk.injEq]
    exact ⟨by omega, trivial⟩

/-! ### Digit-loop structural lemmas -/

theorem scanLoop_stop (k : Kind) (b : Nat) (co : Int) (cl : Nat) (l : List Nat)
    (cur : Nat) (val : Int) (any oflow : Bool) (h : b ≤ digval (l.headD 0)) :
    scanLoop k b co cl l cur val any oflow = ⟨cur, val, any, oflow⟩ := by
  cases l with
  | nil => rfl
  | cons c r =>
    simp only [List.headD_cons] at h
    simp [scanLoop, not_lt.2 h]

theorem scanLoop_shift (k : Kind) (b : Nat) (co : Int) (cl : Nat) :
    ∀ (l : List Nat) (cur d : Nat) (val : Int) (any oflow : Bool),
    scanLoop k b co cl l (cur + d) val any oflow =
      ⟨(scanLoop k b co cl l cur val any oflow).cur + d,
        (scanLoop k b co cl l cur val any oflow).val,
        (scanLoop k b co cl l cur val any oflow).any,
        (scanLoop k b co cl l cur val any oflow).oflow⟩ := by
  intro l
  induction l with
  | nil => intros; rfl
  | cons c r ih =>
    intro cur d val any oflow
    by_cases hc : digval c < b
    · simp only [scanLoop, if_pos hc]
      rw [show cur + d + 1 = cur + 1 + d by omega, ih]
    · simp only [scanLoop, if_neg hc]

theorem scanLoop_shape (k : Kind) (b : Nat) (co : Int) (cl : Nat) :
    ∀ (l : List Nat) (cur : Nat) (val : Int) (any oflow : Bool),
    (scanLoop k b co cl l cur val any oflow).cur
        = cur + (l.takeWhile (fun c => decide (digval c < b))).length
    ∧ (scanLoop k b co cl l cur val any oflow).any
        = (any || !(l.takeWhile (fun c => decide (digval c < b))).isEmpty)
    ∧ (oflow = true → (scanLoop k b co cl l cur val any oflow).oflow = true)
    ∧ ((scanLoop k b co cl l cur val any oflow).oflow = true →
        oflow = true ∨ (scanLoop k b co cl l cur val any oflow).any = true) := by
  intro l
  induction l with
  | nil =>
    intro cur val any oflow
    exact ⟨by simp [scanLoop], by simp [scanLoop], fun h => h, fun h => Or.inl h⟩
  | cons c r ih =>
    intro cur val any oflow
    by_cases hc : digval c < b
    · have hSL : scanLoop k b co cl (c :: r) cur val any oflow =
          scanLoop k b co cl r (cur + 1)
            (wrap k (val * (b : Int) + (digval c : Int))) true
            (oflow || decide (co < val) ||
              (decide (val = co) && decide (cl < digval c))) := by
        simp [scanLoop, hc]
      have hTW : (c :: r).takeWhile (fun x => decide (digval x < b)) =
          c :: r.takeWhile (fun x => decide (digval x < b)) := by
        simp [List.takeWhile_cons, hc]
      obtain ⟨h1, h2, h3, h4⟩ := ih (cur + 1)
        (wrap k (val * (b : Int) + (digval c : Int))) true
        (oflow || decide (co < val) || (decide (val = co) && decide (cl < digval c)))
      rw [hSL, hTW]
      refine ⟨?_, ?_, ?_, ?_⟩
      · rw [h1, List.length_cons]; omega
      · rw [h2]; simp
      · intro ho
        exact h3 (by rw [ho]; simp)
      · intro _
        right
        rw [h2]; simp
    · have hSL : scanLoop k b co cl (c :: r) cur val any oflow =
          ⟨cur, val, any, oflow⟩ := by
        simp [scanLoop, hc]
      have hTW : (c :: r).takeWhile (fun x => decide (digval x < b)) = [] := by
        simp [List.takeWhile_cons, hc]
      rw [hSL, hTW]
      exact ⟨by simp, by simp, fun h => h, fun h => Or.inl h⟩

/-! ### Front-end lemmas -/

theorem front_cons_space (w : Nat) (s : List Nat) (b0 : Nat)
    (hw : ISSPACE w = true) :
    front (w :: s) b0 =
      ⟨(front s b0).base, (front s b0).neg, (front s b0).hex,
        (front s b0).start + 1, (front s b0).rest⟩ := by
  unfold front
  rw [skipSp_cons_space w s hw]
  simp only [FrontSt.mk.injEq, eq_self_iff_true, true_and, and_true]
  omega

theorem frontCore_neg (r0 : List Nat) (b0 : Nat) :
    (frontCore r0 b0).neg = decide (r0.headD 0 = 45) := by
  simp only [frontCore]
  split <;> split <;> rfl

theorem front_neg_eq_parsedNeg (s : List Nat) (b0 : Nat) :
    (front s b0).neg = parsedNeg s := by
  unfold front parsedNeg
  simp only [frontCore_neg]

theorem frontCore_noSign (s : List Nat) (b0 : Nat)
    (h43 : s.headD 0 ≠ 43) (h45 : s.headD 0 ≠ 45) :
    frontCore s b0 =
      if s.headD 0 = 48 ∧ (s.tail.headD 0 ||| 32) = 120 ∧ (b0 = 0 ∨ b0 = 16) then
        ⟨16, false, true, 2, s.tail.tail⟩
      else
        ⟨if b0 = 0 then (if s.headD 0 = 48 then 8 else 10) else b0,
          false, false, 0, s⟩ := by
  have hnosign : ¬(s.headD 0 = 45 ∨ s.headD 0 = 43) := by
    intro h
    rcases h with h | h
    · exact h45 h
    · exact h43 h
  simp only [frontCore, if_neg hnosign, decide_eq_false h45]

theorem frontCore_minusSign (s : List Nat) (b0 : Nat) :
    frontCore (45 :: s) b0 =
      if s.headD 0 = 48 ∧ (s.tail.headD 0 ||| 32) = 120 ∧ (b0 = 0 ∨ b0 = 16) then
        ⟨16, true, true, 3, s.tail.tail⟩
      else
        ⟨if b0 = 0 then (if s.headD 0 = 48 then 8 else 10) else b0,
          true, false, 1, s⟩ := by
  simp only [frontCore, List.headD_cons, List.tail_cons]
  split_ifs <;> simp_all

theorem frontCore_plusSign (s : List Nat) (b0 : Nat) :
    frontCore (43 :: s) b0 =
      if s.headD 0 = 48 ∧ (s.tail.headD 0 ||| 32) = 120 ∧ (b0 = 0 ∨ b0 = 16) then
        ⟨16, false, true, 3, s.tail.tail⟩
      else
        ⟨if b0 = 0 then (if s.headD 0 = 48 then 8 else 10) else b0,
          false, false, 1, s⟩ := by
  simp only [frontCore, List.headD_cons, List.tail_cons]
  split_ifs <;> simp_all

theorem front_plusSign (s : List Nat) (b0 : Nat)
    (hsp : ISSPACE (s.headD 0) = false) (h43 : s.headD 0 ≠ 43)
    (h45 : s.headD 0 ≠ 45) :
    front (43 :: s) b0 =
      ⟨(front s b0).base, (front s b0).neg, (front s b0).hex,
        (front s b0).start + 1, (front s b0).rest⟩ := by
  have h1 : skipSp (43 :: s) = (0, 43 :: s) := by
    apply skipSp_of_head
    simp only [List.headD_cons]
    decide
  have h2 : skipSp s = (0, s) := skipSp_of_head s hsp
  unfold front
  rw [h1, h2, frontCore_plusSign s b0, frontCore_noSign s b0 h43 h45]
  split_ifs <;> simp [FrontSt.mk.injEq]

/-! ### Canonical digit expansion lemmas -/

theorem foldl_mul_add_le (b : Nat) (hb : 1 ≤ b) :
    ∀ (L : List Nat) (m : Nat), m ≤ L.foldl (fun a d => a * b + d) m := by
  intro L
  induction L with
  | nil => intro m; simp
  | cons d t ih =>
    intro m
    have h1 : m ≤ m * b + d := by nlinarith
    simpa [List.foldl_cons] using le_trans h1 (ih (m * b + d))

theorem natDigitsF_congr (b : Nat) (hb : 2 ≤ b) :
    ∀ (f1 n f2 : Nat), n ≤ f1 → n ≤ f2 → natDigitsF f1 b n = natDigitsF f2 b n := by
  intro f1
  induction f1 with
  | zero =>
    intro n f2 h1 _
    have hn : n = 0 := Nat.le_zero.mp h1
    subst hn
    cases f2 with
    | zero => rfl
    | succ g => simp [natDigitsF, show (0 : Nat) < b by omega]
  | succ f ih =>
    intro n f2 h1 h2
    cases f2 with
    | zero =>
      have hn : n = 0 := Nat.le_zero.mp h2
      subst hn
      simp [natDigitsF, show (0 : Nat) < b by omega]
    | succ g =>
      simp only [natDigitsF]
      by_cases hnb : n < b
      · simp [hnb]
      · simp only [if_neg hnb]
        have hdiv : n / b < n := Nat.div_lt_self (by omega) hb
        rw [ih (n / b) g (by omega) (by omega)]

theorem natDigits_lt_base (b n : Nat) (h : n < b) : natDigits b n = [n] := by
  unfold natDigits
  cases n with
  | zero => rfl
  | succ m => simp [natDigitsF, h]

theorem natDigits_ge_base (b n : Nat) (hb : 2 ≤ b) (h : b ≤ n) :
    natDigits b n = natDigits b (n / b) ++ [n % b] := by
  unfold natDigits
  obtain ⟨m, rfl⟩ : ∃ m, n = m + 1 := ⟨n - 1, by omega⟩
  simp only [natDigitsF, if_neg (not_lt.mpr h)]
  congr 1
  exact natDigitsF_congr b hb m ((m + 1) / b) ((m + 1) / b)
    (by
      have : (m + 1) / b < m + 1 := Nat.div_lt_self (by omega) hb
      omega)
    (le_refl _)

theorem natDigits_all_lt (b : Nat) (hb : 2 ≤ b) :
    ∀ n, ∀ d ∈ natDigits b n, d < b := by
  intro n
  induction n using Nat.strong_induction_on with
  | _ n ih =>
    by_cases h : n < b
    · rw [natDigits_lt_base b n h]
      intro d hd
      simp at hd
      omega
    · rw [natDigits_ge_base b n hb (not_lt.mp h)]
      intro d hd
      rcases List.mem_append.mp hd with hd | hd
      · exact ih (n / b) (Nat.div_lt_self (by omega) hb) d hd
      · simp at hd
        subst hd
        exact Nat.mod_lt _ (by omega)

theorem natDigits_ne_nil (b n : Nat) (hb : 2 ≤ b) : natDigits b n ≠ [] := by
  by_cases h : n < b
  · rw [natDigits_lt_base b n h]
    simp
  · rw [natDigits_ge_base b n hb (not_lt.mp h)]
    simp

theorem natDigits_foldl (b : Nat) (hb : 2 ≤ b) :
    ∀ n m, (natDigits b n).foldl (fun a d => a * b + d) m
      = m * b ^ (natDigits b n).length + n := by
  intro n
  induction n using Nat.strong_induction_on with
  | _ n ih =>
    intro m
    by_cases h : n < b
    · rw [natDigits_lt_base b n h]
      simp [pow_one]
    · rw [natDigits_ge_base b n hb (not_lt.mp h)]
      simp only [List.foldl_append, List.foldl_cons, List.foldl_nil,
        List.length_append, List.length_cons, List.length_nil]
      rw [ih (n / b) (Nat.div_lt_self (by omega) hb) m]
      rw [show (natDigits b (n / b)).length + (0 + 1)
          = (natDigits b (n / b)).length + 1 by omega, pow_succ]
      have hd := Nat.div_add_mod n b
      calc (m * b ^ (natDigits b (n / b)).length + n / b) * b + n % b
          = m * (b ^ (natDigits b (n / b)).length * b)
            + (b * (n / b) + n % b) := by ring
        _ = m * (b ^ (natDigits b (n / b)).length * b) + n := by rw [hd]

theorem natDigits_val (b n : Nat) (hb : 2 ≤ b) :
    (natDigits b n).foldl (fun a d => a * b + d) 0 = n := by
  have := natDigits_foldl b hb n 0
  simpa using this

theorem natDigits_headD_ne_zero (b : Nat) (hb : 2 ≤ b) :
    ∀ n, n ≠ 0 → (natDigits b n).headD 0 ≠ 0 := by
  intro n
  induction n using Nat.strong_induction_on with
  | _ n ih =>
    intro hn
    by_cases h : n < b
    · rw [natDigits_lt_base b n h]
      simpa using hn
    · rw [natDigits_ge_base b n hb (not_lt.mp h)]
      have hdiv : n / b ≠ 0 := by
        have h1 : b ≤ n := not_lt.mp h
        have h2 := Nat.div_pos h1 (by omega)
        omega
      have h1 := ih (n / b) (Nat.div_lt_self (by omega) hb) hdiv
      have hne := natDigits_ne_nil b (n / b) hb
      obtain ⟨x, xs, hx⟩ := List.exists_cons_of_ne_nil hne
      rw [hx] at h1 ⊢
      simpa using h1

/-! ### Digit-loop accumulation lemmas -/

theorem scanLoop_accum (k : Kind) (b uc : Nat) (hb2 : 2 ≤ b) (hb36 : b ≤ 36)
    (huc : uc ≤ if k.signed = true then 2 ^ (k.bits - 1) else 2 ^ k.bits - 1) :
    ∀ (ds l : List Nat) (cur m : Nat) (any : Bool),
    (∀ d ∈ ds, d < b) →
    ds.foldl (fun a d => a * b + d) m ≤ uc →
    scanLoop k b ((uc / b : Nat) : Int) (uc % b) (ds.map digitChar ++ l) cur
        (wrap k (m : Int)) any false
      = scanLoop k b ((uc / b : Nat) : Int) (uc % b) l (cur + ds.length)
          (wrap k ((ds.foldl (fun a d => a * b + d) m : Nat) : Int))
          (any || !ds.isEmpty) false := by
  intro ds
  induction ds with
  | nil =>
    intro l cur m any _ _
    simp
  | cons d t ih =>
    intro l cur m any hds hfold
    have hdb : d < b := hds d (by simp)
    have hd36 : d < 36 := lt_of_lt_of_le hdb hb36
    have hdv : digval (digitChar d) = d := digval_digitChar d hd36
    have hds2 : ∀ x ∈ t, x < b := fun x hx => hds x (List.mem_cons_of_mem d hx)
    have hfold2 : t.foldl (fun a d => a * b + d) (m * b + d) ≤ uc := by
      simpa [List.foldl_cons] using hfold
    have hmd : m * b + d ≤ uc :=
      le_trans (foldl_mul_add_le b (by omega) t _) hfold2
    have hmcut : m ≤ uc / b :=
      (Nat.le_div_iff_mul_le (by omega)).mpr (by omega)
    have huc2 : uc / b ≤ uc / 2 := Nat.div_le_div_left hb2 (by omega)
    have hmlt_s : k.signed = true → (m : Int) < 2 ^ (k.bits - 1) := by
      intro hs
      have h1 : uc ≤ 2 ^ (k.bits - 1) := by simpa [hs] using huc
      have h2 : uc / 2 ≤ 2 ^ (k.bits - 1) / 2 := Nat.div_le_div_right h1
      have h3 : 2 ^ (k.bits - 1) / 2 < 2 ^ (k.bits - 1) :=
        Nat.div_lt_self (pow_pos (by omega) _) (by omega)
      have hm : m < 2 ^ (k.bits - 1) := by omega
      exact_mod_cast hm
    have hmlt_u : k.signed = false → (m : Int) < 2 ^ k.bits := by
      intro hs
      have h1 : uc ≤ 2 ^ k.bits - 1 := by simpa [hs] using huc
      have h2 : (0 : Nat) < 2 ^ k.bits := pow_pos (by omega) _
      have hm : m < 2 ^ k.bits := by omega
      exact_mod_cast hm
    have hwrap : wrap k (m : Int) = (m : Int) :=
      wrap_eq_self_of_nonneg k m (by positivity) hmlt_s hmlt_u
    rw [List.map_cons, List.cons_append]
    simp only [scanLoop, hdv, if_pos hdb]
    rw [hwrap]
    have hdm := Nat.div_add_mod uc b
    have hflag : (false || decide (((uc / b : Nat) : Int) < (m : Int)) ||
        (decide ((m : Int) = ((uc / b : Nat) : Int)) && decide (uc % b < d)))
          = false := by
      have h1 : ¬(((uc / b : Nat) : Int) < (m : Int)) := by
        rw [not_lt]
        exact_mod_cast hmcut
      by_cases hmeq : m = uc / b
      · have h3 : ¬(uc % b < d) := by
          rw [mul_comm] at hmd
          rw [← hmeq] at hdm
          omega
        rw [decide_eq_false h1, decide_eq_false h3]
        simp
      · have h2 : ¬((m : Int) = ((uc / b : Nat) : Int)) := by
          intro hh
          exact hmeq (by exact_mod_cast hh)
        rw [decide_eq_false h1, decide_eq_false h2]
        simp
    rw [hflag]
    have hval : ((m : Int) * (b : Int) + ((d : Nat) : Int))
        = (((m * b + d : Nat)) : Int) := by
      push_cast
      ring
    rw [hval]
    rw [ih l (cur + 1) (m * b + d) true hds2 hfold2]
    have hA : cur + 1 + t.length = cur + (d :: t).length := by
      simp [List.length_cons]
      omega
    have hV : t.foldl (fun a d => a * b + d) (m * b + d)
        = (d :: t).foldl (fun a d => a * b + d) m := by
      simp [List.foldl_cons]
    have hB : (true || !t.isEmpty) = (any || !(d :: t).isEmpty) := by
      simp
    rw [hA, hV, hB]

theorem scanLoop_fire (k : Kind) (b uc : Nat) (hb36 : b ≤ 36)
    (d p : Nat) (hd : d < b) (hfire : uc < p * b + d) (l : List Nat)
    (cur : Nat) (any : Bool) :
    scanLoop k b ((uc / b : Nat) : Int) (uc % b) (digitChar d :: l) cur
        ((p : Nat) : Int) any false
      = scanLoop k b ((uc / b : Nat) : Int) (uc % b) l (cur + 1)
          (wrap k ((p * b + d : Nat) : Int)) true true := by
  have hd36 : d < 36 := by omega
  have hdv := digval_digitChar d hd36
  simp only [scanLoop, hdv, if_pos hd]
  have hdm := Nat.div_add_mod uc b
  have hflag : (false || decide (((uc / b : Nat) : Int) < (p : Int)) ||
      (decide ((p : Int) = ((uc / b : Nat) : Int)) && decide (uc % b < d)))
        = true := by
    by_cases hpc : uc / b < p
    · have hlt : (((uc / b : Nat) : Int) < (p : Int)) := by exact_mod_cast hpc
      rw [decide_eq_true hlt]
      simp
    · have hple : p ≤ uc / b := not_lt.mp hpc
      have hpeq : p = uc / b := by
        by_contra hne
        have hplt : p < uc / b := lt_of_le_of_ne hple hne
        have h1 : (p + 1) * b ≤ (uc / b) * b := Nat.mul_le_mul_right b hplt
        have h2 : (uc / b) * b ≤ uc := Nat.div_mul_le_self uc b
        nlinarith
      have hdgt : uc % b < d := by
        by_contra hh
        have h3 : d ≤ uc % b := not_lt.mp hh
        have h4 : p * b + d ≤ uc := by
          rw [hpeq, mul_comm]
          omega
        omega
      have he : ((p : Int) = ((uc / b : Nat) : Int)) := by exact_mod_cast hpeq
      rw [decide_eq_true he, decide_eq_true hdgt]
      simp
  rw [hflag]
  have hval : ((p : Int) * (b : Int) + ((d : Nat) : Int))
      = (((p * b + d : Nat)) : Int) := by
    push_cast
    ring
  rw [hval]

/-! ### Parser assembly lemmas -/

theorem strtoi_natBase (k : Kind) (s : List Nat) (b : Nat)
    (hb : b = 0 ∨ (2 ≤ b ∧ b ≤ 36)) :
    strtoi k s (b : Int) =
      finalizeRes k (front s b)
        (scanLoop k (front s b).base
          ((ucutoff k (front s b).neg / (front s b).base : Nat) : Int)
          (ucutoff k (front s b).neg % (front s b).base)
          (front s b).rest (front s b).start 0 false false) := by
  have hb36 : b ≤ 36 := by rcases hb with h | h <;> omega
  have hb1 : b ≠ 1 := by rcases hb with h | h <;> omega
  have hne : ¬((b : Int) < 0 ∨ 36 < (b : Int) ∨ (b : Int) = 1) := by
    push_neg
    refine ⟨by positivity, ?_, ?_⟩
    · exact_mod_cast hb36
    · exact_mod_cast hb1
  rw [strtoi, if_neg hne]
  simp

theorem front_of_core (s : List Nat) (b0 : Nat)
    (hsp : ISSPACE (s.headD 0) = false) :
    front s b0 = ⟨(frontCore s b0).base, (frontCore s b0).neg,
      (frontCore s b0).hex, (frontCore s b0).start, (frontCore s b0).rest⟩ := by
  unfold front
  rw [skipSp_of_head s hsp]
  simp

theorem front_append_ws (ws s : List Nat) (b0 : Nat)
    (hws : ∀ c ∈ ws, ISSPACE c = true) :
    front (ws ++ s) b0 =
      ⟨(front s b0).base, (front s b0).neg, (front s b0).hex,
        ws.length + (front s b0).start, (front s b0).rest⟩ := by
  induction ws with
  | nil => simp
  | cons w t ih =>
    have hw := hws w (List.mem_cons_self w t)
    rw [List.cons_append, front_cons_space w (t ++ s) b0 hw,
      ih (fun x hx => hws x (List.mem_cons_of_mem _ hx))]
    simp only [FrontSt.mk.injEq, List.length_cons, eq_self_iff_true,
      true_and, and_true]
    omega

theorem front_decomp (ws sgn core : List Nat) (b0 : Nat)
    (hws : ∀ c ∈ ws, ISSPACE c = true)
    (hsgn : sgn = [] ∨ sgn = [43] ∨ sgn = [45])
    (hsp : ISSPACE (core.headD 0) = false)
    (h43 : core.headD 0 ≠ 43) (h45 : core.headD 0 ≠ 45) :
    front (ws ++ (sgn ++ core)) b0 =
      if core.headD 0 = 48 ∧ (core.tail.headD 0 ||| 32) = 120
          ∧ (b0 = 0 ∨ b0 = 16) then
        ⟨16, decide (sgn = [45]), true, ws.length + sgn.length + 2,
          core.tail.tail⟩
      else
        ⟨if b0 = 0 then (if core.headD 0 = 48 then 8 else 10) else b0,
          decide (sgn = [45]), false, ws.length + sgn.length, core⟩ := by
  have hhead : ISSPACE ((sgn ++ core).headD 0) = false := by
    rcases hsgn with rfl | rfl | rfl
    · simpa using hsp
    · rfl
    · rfl
  rw [front_append_ws ws (sgn ++ core) b0 hws, front_of_core _ b0 hhead]
  rcases hsgn with rfl | rfl | rfl
  · simp only [List.nil_append]
    rw [frontCore_noSign core b0 h43 h45]
    split_ifs with hc <;> simp [FrontSt.mk.injEq]
  · rw [show ([43] ++ core : List Nat) = 43 :: core from rfl,
      frontCore_plusSign core b0]
    split_ifs with hc <;> simp [FrontSt.mk.injEq]
  · rw [show ([45] ++ core : List Nat) = 45 :: core from rfl,
      frontCore_minusSign core b0]
    split_ifs with hc <;> simp [FrontSt.mk.injEq]

/-! ### Parsing canonical renderings -/

theorem front_render (b : Nat) (hb2 : 2 ≤ b) (hb36 : b ≤ 36) (n : Nat) :
    front ((natDigits b n).map digitChar) b
        = ⟨b, false, false, 0, (natDigits b n).map digitChar⟩
    ∧ front (45 :: (natDigits b n).map digitChar) b
        = ⟨b, true, false, 1, (natDigits b n).map digitChar⟩ := by
  obtain ⟨d0, t0, hd⟩ := List.exists_cons_of_ne_nil (natDigits_ne_nil b n hb2)
  have hd0b : d0 < b := natDigits_all_lt b hb2 n d0
    (by rw [hd]; exact List.mem_cons_self _ _)
  have hd036 : d0 < 36 := by omega
  have hhead : ((natDigits b n).map digitChar).headD 0 = digitChar d0 := by
    rw [hd]
    simp
  have hsp : ISSPACE (((natDigits b n).map digitChar).headD 0) = false := by
    rw [hhead]
    exact digitChar_not_space d0 hd036
  have h43 : ((natDigits b n).map digitChar).headD 0 ≠ 43 := by
    rw [hhead]
    exact digitChar_ne_plus d0 hd036
  have h45 : ((natDigits b n).map digitChar).headD 0 ≠ 45 := by
    rw [hhead]
    exact digitChar_ne_minus d0 hd036
  have hnohex : ¬(((natDigits b n).map digitChar).headD 0 = 48
      ∧ (((natDigits b n).map digitChar).tail.headD 0 ||| 32) = 120
      ∧ (b = 0 ∨ b = 16)) := by
    rintro ⟨hc1, hc2, _⟩
    have hd00 : d0 = 0 := digitChar_eq_48 d0 hd036 (by rw [← hhead]; exact hc1)
    by_cases hn0 : n = 0
    · subst hn0
      rw [natDigits_lt_base b 0 (by omega)] at hc2
      exact absurd hc2 (by decide)
    · have hne0 := natDigits_headD_ne_zero b hb2 n hn0
      rw [hd] at hne0
      simp at hne0
      exact hne0 hd00
  constructor
  · rw [front_of_core _ b hsp, frontCore_noSign _ b h43 h45, if_neg hnohex]
    simp [show ¬(b = 0) from by omega]
  · have hsp45 : ISSPACE ((45 :: (natDigits b n).map digitChar).headD 0)
        = false := by rfl
    rw [front_of_core _ b hsp45, frontCore_minusSign _ b, if_neg hnohex]
    simp [show ¬(b = 0) from by omega]

theorem scan_render (k : Kind) (b uc n : Nat) (hb2 : 2 ≤ b) (hb36 : b ≤ 36)
    (huc : uc ≤ if k.signed = true then 2 ^ (k.bits - 1) else 2 ^ k.bits - 1)
    (hn : n ≤ uc) (start : Nat) :
    scanLoop k b ((uc / b : Nat) : Int) (uc % b) ((natDigits b n).map digitChar)
        start 0 false false
      = ⟨start + (natDigits b n).length, wrap k (n : Int), true, false⟩ := by
  have h0 : (0 : Int) = wrap k ((0 : Nat) : Int) := by simp [wrap_zero]
  rw [h0, ← List.append_nil ((natDigits b n).map digitChar)]
  rw [scanLoop_accum k b uc hb2 hb36 huc (natDigits b n) [] start 0 false
    (natDigits_all_lt b hb2 n) (by rw [natDigits_val b n hb2]; exact hn)]
  rw [natDigits_val b n hb2]
  have hie : (natDigits b n).isEmpty = false := by
    rcases List.exists_cons_of_ne_nil (natDigits_ne_nil b n hb2) with ⟨x, xs, hx⟩
    rw [hx]
    rfl
  simp [scanLoop, hie]


theorem strtoi_render_ok (k : Kind) (hbits : 1 ≤ k.bits) (b : Nat)
    (hb2 : 2 ≤ b) (hb36 : b ≤ 36) (v : Int) (h1 : kmin k ≤ v)
    (h2 : v ≤ kmax k) :
    strtoi k (render b v) (b : Int)
      = ⟨v, (natDigits b v.natAbs).length + (if v < 0 then 1 else 0), .Ok⟩ := by
  have hpow1 : (1 : Nat) ≤ 2 ^ (k.bits - 1) := Nat.one_le_pow _ _ (by omega)
  have hpow1b : (1 : Nat) ≤ 2 ^ k.bits := Nat.one_le_pow _ _ (by omega)
  rw [strtoi_natBase k (render b v) b (Or.inr ⟨hb2, hb36⟩)]
  by_cases hv : v < 0
  · have hsigned : k.signed = true := by
      cases hs : k.signed
      · rw [kmin, hs] at h1
        simp at h1
        omega
      · rfl
    have hnabs : ((v.natAbs : Nat) : Int) = -v := by
      rw [Int.natCast_natAbs, abs_of_neg hv]
    have h1s : -((2 : Int) ^ (k.bits - 1)) ≤ v := by
      rw [kmin, hsigned] at h1
      simpa using h1
    have hnle : v.natAbs ≤ ucutoff k true := by
      have hi : ((v.natAbs : Nat) : Int) ≤ ((ucutoff k true : Nat) : Int) := by
        rw [hnabs, ucutoff, hsigned]
        simp only [if_true]
        push_cast
        linarith
      exact_mod_cast hi
    have huc_le : ucutoff k true
        ≤ if k.signed = true then 2 ^ (k.bits - 1) else 2 ^ k.bits - 1 := by
      simp [ucutoff, hsigned]
    have hrender : render b v = 45 :: (natDigits b v.natAbs).map digitChar := by
      rw [render, if_pos hv]
      rfl
    rw [hrender, (front_render b hb2 hb36 v.natAbs).2]
    dsimp only
    rw [scan_render k b (ucutoff k true) v.natAbs hb2 hb36 huc_le hnle 1]
    have hfin : wrap k (-wrap k |v|) = v := by
      rw [abs_of_neg hv, wrap_neg_wrap, neg_neg]
      exact wrap_eq_self_of_neg k v hsigned hbits h1s hv
    simp [finalizeRes, hfin, hv, Nat.add_comm]
  · have hv0 : 0 ≤ v := not_lt.mp hv
    have hnabs : ((v.natAbs : Nat) : Int) = v := Int.natAbs_of_nonneg hv0
    have hucv : ((ucutoff k false : Nat) : Int) = kmax k := by
      cases hs : k.signed
      · simp only [ucutoff, kmax, hs, Bool.false_eq_true, if_false]
        rw [Nat.cast_sub hpow1b]
        push_cast
        ring
      · simp only [ucutoff, kmax, hs, if_true, Bool.false_eq_true, if_false]
        rw [Nat.cast_sub hpow1]
        push_cast
        ring
    have hnle : v.natAbs ≤ ucutoff k false := by
      have hi : ((v.natAbs : Nat) : Int) ≤ ((ucutoff k false : Nat) : Int) := by
        rw [hnabs, hucv]
        exact h2
      exact_mod_cast hi
    have huc_le : ucutoff k false
        ≤ if k.signed = true then 2 ^ (k.bits - 1) else 2 ^ k.bits - 1 := by
      rw [ucutoff]
      cases hs : k.signed
      · simp [hs]
      · simp [hs]
    have hrender : render b v = (natDigits b v.natAbs).map digitChar := by
      rw [render, if_neg hv, List.nil_append]
    rw [hrender, (front_render b hb2 hb36 v.natAbs).1]
    dsimp only
    rw [scan_render k b (ucutoff k false) v.natAbs hb2 hb36 huc_le hnle 0]
    have hwrapn : wrap k |v| = v := by
      rw [abs_of_nonneg hv0]
      apply wrap_eq_self_of_nonneg k v hv0
      · intro hs
        rw [kmax, hs] at h2
        simp at h2
        linarith
      · intro hs
        rw [kmax, hs] at h2
        simp at h2
        have hc : ((2 ^ k.bits - 1 : Nat) : Int) = 2 ^ k.bits - 1 := by
          rw [Nat.cast_sub hpow1b]
          push_cast
          ring
        linarith
    simp [finalizeRes, hwrapn, hv]

theorem scan_render_over (k : Kind) (b uc : Nat) (hb2 : 2 ≤ b) (hb36 : b ≤ 36)
    (hbits : 2 ≤ k.bits)
    (huc : uc ≤ if k.signed = true then 2 ^ (k.bits - 1) else 2 ^ k.bits - 1)
    (huc1 : 1 ≤ uc) (start : Nat) :
    ∃ w : Int, scanLoop k b ((uc / b : Nat) : Int) (uc % b)
        ((natDigits b (uc + 1)).map digitChar) start 0 false false
      = ⟨start + (natDigits b (uc + 1)).length, w, true, true⟩ := by
  by_cases hnb : uc + 1 < b
  · rw [natDigits_lt_base b (uc + 1) hnb]
    refine ⟨wrap k ((0 * b + (uc + 1) : Nat) : Int), ?_⟩
    have h0 : (0 : Int) = ((0 : Nat) : Int) := rfl
    rw [List.map_cons, List.map_nil, h0,
      scanLoop_fire k b uc hb36 (uc + 1) 0 hnb (by omega) [] start false]
    simp [scanLoop]
  · have hge : b ≤ uc + 1 := not_lt.mp hnb
    rw [natDigits_ge_base b (uc + 1) hb2 hge, List.map_append]
    have hq2 : (uc + 1) / b ≤ (uc + 1) / 2 := Nat.div_le_div_left hb2 (by omega)
    have hq2b : ((uc + 1) / 2) * 2 ≤ uc + 1 := Nat.div_mul_le_self _ _
    have hqle : (uc + 1) / b ≤ uc := by omega
    have hfold : (natDigits b ((uc + 1) / b)).foldl (fun a d => a * b + d) 0
        ≤ uc := by
      rw [natDigits_val _ _ hb2]
      exact hqle
    have h0 : (0 : Int) = wrap k ((0 : Nat) : Int) := by simp [wrap_zero]
    rw [show List.map digitChar [(uc + 1) % b] = [digitChar ((uc + 1) % b)]
      from rfl]
    rw [h0, scanLoop_accum k b uc hb2 hb36 huc (natDigits b ((uc + 1) / b))
      [digitChar ((uc + 1) % b)]
      start 0 false (natDigits_all_lt b hb2 _) hfold]
    rw [natDigits_val _ _ hb2]
    -- the wrapped quotient is the plain quotient
    have hwq : wrap k (((uc + 1) / b : Nat) : Int) = (((uc + 1) / b : Nat) : Int) := by
      apply wrap_eq_self_of_nonneg k _ (by positivity)
      · intro hs
        have h1 : uc ≤ 2 ^ (k.bits - 1) := by simpa [hs] using huc
        have hp2 : 2 ≤ 2 ^ (k.bits - 1) := by
          calc (2 : Nat) = 2 ^ 1 := by norm_num
            _ ≤ 2 ^ (k.bits - 1) := Nat.pow_le_pow_right (by omega) (by omega)
        have hq : (uc + 1) / b < 2 ^ (k.bits - 1) := by omega
        exact_mod_cast hq
      · intro hs
        have h1 : uc ≤ 2 ^ k.bits - 1 := by simpa [hs] using huc
        have hp : (0 : Nat) < 2 ^ k.bits := pow_pos (by omega) _
        have hq : (uc + 1) / b < 2 ^ k.bits := by omega
        exact_mod_cast hq
    rw [hwq, scanLoop_fire k b uc hb36 ((uc + 1) % b) ((uc + 1) / b)
      (Nat.mod_lt _ (by omega))
      (by
        have hdm := Nat.div_add_mod (uc + 1) b
        calc uc < uc + 1 := by omega
          _ = (uc + 1) / b * b + (uc + 1) % b := by rw [mul_comm]; omega)
      [] (start + (natDigits b ((uc + 1) / b)).length)
      (false || !(natDigits b ((uc + 1) / b)).isEmpty)]
    refine ⟨wrap k (((uc + 1) / b * b + (uc + 1) % b : Nat) : Int), ?_⟩
    have hie : (natDigits b ((uc + 1) / b)).isEmpty = false := by
      rcases List.exists_cons_of_ne_nil (natDigits_ne_nil b ((uc + 1) / b) hb2)
        with ⟨x, xs, hx⟩
      rw [hx]
      rfl
    simp [scanLoop, hie, List.length_append]
    omega

theorem ucutoff_false_cast (k : Kind) :
    ((ucutoff k false : Nat) : Int) = kmax k := by
  have hpow1 : (1 : Nat) ≤ 2 ^ (k.bits - 1) := Nat.one_le_pow _ _ (by omega)
  have hpow1b : (1 : Nat) ≤ 2 ^ k.bits := Nat.one_le_pow _ _ (by omega)
  cases hs : k.signed
  · simp only [ucutoff, kmax, hs, Bool.false_eq_true, if_false]
    rw [Nat.cast_sub hpow1b]
    push_cast
    ring
  · simp only [ucutoff, kmax, hs, if_true, Bool.false_eq_true, if_false]
    rw [Nat.cast_sub hpow1]
    push_cast
    ring

theorem ucutoff_true_cast (k : Kind) (hs : k.signed = true) :
    ((ucutoff k true : Nat) : Int) = -(kmin k) := by
  simp only [ucutoff, kmin, hs, if_true, neg_neg]
  push_cast
  ring

theorem ucutoff_le (k : Kind) (neg : Bool) :
    ucutoff k neg ≤ if k.signed = true then 2 ^ (k.bits - 1)
      else 2 ^ k.bits - 1 := by
  cases neg <;> cases hs : k.signed <;> simp [ucutoff, hs]

theorem kmax_nonneg (k : Kind) : 0 ≤ kmax k := by
  have h1 : (1 : Int) ≤ 2 ^ (k.bits - 1) := by
    exact_mod_cast Nat.one_le_pow (k.bits - 1) 2 (by omega)
  have h2 : (1 : Int) ≤ 2 ^ k.bits := by
    exact_mod_cast Nat.one_le_pow k.bits 2 (by omega)
  cases hs : k.signed <;> simp [kmax, hs] <;> linarith

theorem wrap_kmax (k : Kind) : wrap k (kmax k) = kmax k := by
  have h1 : (1 : Int) ≤ 2 ^ (k.bits - 1) := by
    exact_mod_cast Nat.one_le_pow (k.bits - 1) 2 (by omega)
  apply wrap_eq_self_of_nonneg k _ (kmax_nonneg k)
  · intro hs
    simp [kmax, hs]
  · intro hs
    simp only [kmax, hs, Bool.false_eq_true, if_false]
    have h2 : (0 : Int) < 2 ^ k.bits := by positivity
    linarith

theorem ucutoff_one_le (k : Kind) (hbits : 2 ≤ k.bits) (neg : Bool) :
    1 ≤ ucutoff k neg := by
  have h4 : (4 : Nat) ≤ 2 ^ k.bits := by
    calc (4 : Nat) = 2 ^ 2 := rfl
      _ ≤ 2 ^ k.bits := Nat.pow_le_pow_right (by omega) hbits
  have h2 : (2 : Nat) ≤ 2 ^ (k.bits - 1) := by
    calc (2 : Nat) = 2 ^ 1 := rfl
      _ ≤ 2 ^ (k.bits - 1) := Nat.pow_le_pow_right (by omega) (by omega)
  cases neg <;> cases hs : k.signed <;> simp [ucutoff, hs] <;> omega

theorem strtoi_render_over_max (k : Kind) (hbits : 2 ≤ k.bits) (b : Nat)
    (hb2 : 2 ≤ b) (hb36 : b ≤ 36) :
    strtoi k (render b (kmax k + 1)) (b : Int)
      = ⟨kmax k, (natDigits b (kmax k + 1).natAbs).length, .OutOfRange⟩ := by
  have hcast : ((ucutoff k false + 1 : Nat) : Int) = kmax k + 1 := by
    rw [Nat.cast_add, ucutoff_false_cast k]
    simp
  have hnabs : (kmax k + 1).natAbs = ucutoff k false + 1 := by
    rw [← hcast, Int.natAbs_ofNat]
  have hvnn : ¬(kmax k + 1 < 0) := by
    have := kmax_nonneg k
    omega
  have hrender : render b (kmax k + 1)
      = (natDigits b (ucutoff k false + 1)).map digitChar := by
    rw [render, if_neg hvnn, List.nil_append, hnabs]
  rw [hnabs, strtoi_natBase k _ b (Or.inr ⟨hb2, hb36⟩), hrender,
    (front_render b hb2 hb36 _).1]
  dsimp only
  obtain ⟨w, hw⟩ := scan_render_over k b (ucutoff k false) hb2 hb36 hbits
    (ucutoff_le k false) (ucutoff_one_le k hbits false) 0
  rw [hw]
  simp [finalizeRes, wrap_kmax]

theorem strtoi_render_over_min (k : Kind) (hbits : 2 ≤ k.bits)
    (hs : k.signed = true) (b : Nat) (hb2 : 2 ≤ b) (hb36 : b ≤ 36) :
    strtoi k (render b (kmin k - 1)) (b : Int)
      = ⟨kmin k, (natDigits b (kmin k - 1).natAbs).length + 1,
          .OutOfRange⟩ := by
  have h1 : (1 : Int) ≤ 2 ^ (k.bits - 1) := by
    exact_mod_cast Nat.one_le_pow (k.bits - 1) 2 (by omega)
  have hneg : kmin k - 1 < 0 := by
    simp only [kmin, hs, if_true]
    linarith
  have hcast : ((ucutoff k true + 1 : Nat) : Int) = -(kmin k - 1) := by
    rw [Nat.cast_add, ucutoff_true_cast k hs]
    push_cast
    ring
  have hnabs : (kmin k - 1).natAbs = ucutoff k true + 1 := by
    have h2 : (((kmin k - 1).natAbs : Nat) : Int) = -(kmin k - 1) := by
      rw [Int.natCast_natAbs, abs_of_neg hneg]
    exact_mod_cast h2.trans hcast.symm
  have hrender : render b (kmin k - 1)
      = 45 :: (natDigits b (ucutoff k true + 1)).map digitChar := by
    rw [render, if_pos hneg, hnabs]
    rfl
  rw [hnabs, strtoi_natBase k _ b (Or.inr ⟨hb2, hb36⟩), hrender,
    (front_render b hb2 hb36 _).2]
  dsimp only
  obtain ⟨w, hw⟩ := scan_render_over k b (ucutoff k true) hb2 hb36 hbits
    (ucutoff_le k true) (ucutoff_one_le k hbits true) 1
  rw [hw]
  have hclamp := wrap_kmax_succ k hs (by omega)
  simp [finalizeRes, hs, hclamp, Nat.add_comm]

theorem kmin_nonpos (k : Kind) : kmin k ≤ 0 := by
  have h1 : (0 : Int) ≤ 2 ^ (k.bits - 1) := by positivity
  cases hs : k.signed <;> simp [kmin, hs]

theorem finalizeRes_oor (k : Kind) (hbits : 1 ≤ k.bits) (f : FrontSt)
    (st : ScanSt) (h : (finalizeRes k f st).status = .OutOfRange) :
    (finalizeRes k f st).value
      = if k.signed && f.neg then kmin k else kmax k := by
  have hof : st.oflow = true := by
    cases ho : st.oflow
    · exfalso
      cases ha : st.any <;> simp [finalizeRes, ho, ha] at h
    · rfl
  cases hs : k.signed
  · simp [finalizeRes, hof, hs]
  · cases hn : f.neg
    · simp [finalizeRes, hof, hs, hn, wrap_kmax]
    · simp [finalizeRes, hof, hs, hn, wrap_kmax_succ k hs hbits]

theorem front_digits (b : Nat) (hb2 : 2 ≤ b) (hb36 : b ≤ 36) (ds : List Nat)
    (hne : ds ≠ []) (hds : ∀ d ∈ ds, d < b) :
    front (ds.map digitChar) b = ⟨b, false, false, 0, ds.map digitChar⟩
    ∧ front (45 :: ds.map digitChar) b
        = ⟨b, true, false, 1, ds.map digitChar⟩ := by
  obtain ⟨d0, t0, hd⟩ := List.exists_cons_of_ne_nil hne
  have hd0b : d0 < b := hds d0 (by rw [hd]; exact List.mem_cons_self _ _)
  have hd036 : d0 < 36 := by omega
  have hhead : (ds.map digitChar).headD 0 = digitChar d0 := by
    rw [hd]
    simp
  have hsp : ISSPACE ((ds.map digitChar).headD 0) = false := by
    rw [hhead]
    exact digitChar_not_space d0 hd036
  have h43 : (ds.map digitChar).headD 0 ≠ 43 := by
    rw [hhead]
    exact digitChar_ne_plus d0 hd036
  have h45 : (ds.map digitChar).headD 0 ≠ 45 := by
    rw [hhead]
    exact digitChar_ne_minus d0 hd036
  have hnohex : ¬((ds.map digitChar).headD 0 = 48
      ∧ ((ds.map digitChar).tail.headD 0 ||| 32) = 120
      ∧ (b = 0 ∨ b = 16)) := by
    rintro ⟨hc1, hc2, hc3⟩
    have hb16 : b = 16 := by
      rcases hc3 with h | h
      · omega
      · exact h
    cases ht0 : t0 with
    | nil =>
      rw [hd, ht0] at hc2
      simp at hc2
    | cons d1 t1 =>
      have hd1b : d1 < b := hds d1
        (by rw [hd, ht0]; exact List.mem_cons_of_mem _ (List.mem_cons_self _ _))
      have hd1x : d1 ≠ 33 := by omega
      have hc2v : (digitChar d1 ||| 32) = 120 := by
        rw [hd, ht0] at hc2
        simpa using hc2
      exact digitChar_lor_ne_x d1 (by omega) hd1x hc2v
  constructor
  · rw [front_of_core _ b hsp, frontCore_noSign _ b h43 h45, if_neg hnohex]
    simp [show ¬(b = 0) from by omega]
  · have hsp45 : ISSPACE ((45 :: ds.map digitChar).headD 0) = false := by rfl
    rw [front_of_core _ b hsp45, frontCore_minusSign _ b, if_neg hnohex]
    simp [show ¬(b = 0) from by omega]

theorem scan_digits (k : Kind) (b uc : Nat) (hb2 : 2 ≤ b) (hb36 : b ≤ 36)
    (huc : uc ≤ if k.signed = true then 2 ^ (k.bits - 1) else 2 ^ k.bits - 1)
    (ds : List Nat) (hne : ds ≠ []) (hds : ∀ d ∈ ds, d < b)
    (hn : ds.foldl (fun a d => a * b + d) 0 ≤ uc) (start : Nat) :
    scanLoop k b ((uc / b : Nat) : Int) (uc % b) (ds.map digitChar) start 0
        false false
      = ⟨start + ds.length,
          wrap k ((ds.foldl (fun a d => a * b + d) 0 : Nat) : Int),
          true, false⟩ := by
  have h0 : (0 : Int) = wrap k ((0 : Nat) : Int) := by simp [wrap_zero]
  rw [h0, ← List.append_nil (ds.map digitChar),
    scanLoop_accum k b uc hb2 hb36 huc ds [] start 0 false hds hn]
  have hie : ds.isEmpty = false := by
    cases ds
    · exact absurd rfl hne
    · rfl
  simp [scanLoop, hie]

theorem strtoi_minus_digits (k : Kind) (hu : k.signed = false)
    (b : Nat) (hb2 : 2 ≤ b) (hb36 : b ≤ 36) (ds : List Nat) (hne : ds ≠ [])
    (hds : ∀ d ∈ ds, d < b)
    (hm : ds.foldl (fun a d => a * b + d) 0 ≤ 2 ^ k.bits - 1) :
    strtoi k (45 :: ds.map digitChar) (b : Int)
      = ⟨((2 ^ k.bits : Int) - ((ds.foldl (fun a d => a * b + d) 0 : Nat) : Int))
            % 2 ^ k.bits,
          1 + ds.length, .Ok⟩ := by
  have hmuc : ds.foldl (fun a d => a * b + d) 0 ≤ ucutoff k true := by
    simpa [ucutoff, hu] using hm
  rw [strtoi_natBase k _ b (Or.inr ⟨hb2, hb36⟩),
    (front_digits b hb2 hb36 ds hne hds).2]
  dsimp only
  rw [scan_digits k b (ucutoff k true) hb2 hb36 (ucutoff_le k true) ds hne hds
    hmuc 1]
  have hwu : ∀ x : Int, wrap k x = x % 2 ^ k.bits := by
    intro x
    rw [wrap]
    simp [hu]
  have hvneg : wrap k (-(wrap k ((ds.foldl (fun a d => a * b + d) 0 : Nat) : Int)))
      = ((2 ^ k.bits : Int)
          - ((ds.foldl (fun a d => a * b + d) 0 : Nat) : Int)) % 2 ^ k.bits := by
    rw [wrap_neg_wrap, hwu]
    conv_lhs => rw [show -((ds.foldl (fun a d => a * b + d) 0 : Nat) : Int)
      = ((2 ^ k.bits : Int) - ((ds.foldl (fun a d => a * b + d) 0 : Nat) : Int))
        + 2 ^ k.bits * (-1) by ring]
    rw [Int.add_mul_emod_self_left]
  simp [finalizeRes, hvneg]

theorem finalizeRes_consumed (k : Kind) (f : FrontSt) (st : ScanSt) :
    (finalizeRes k f st).consumed
      = if st.any then st.cur else (if f.hex then f.start - 1 else 0) := rfl

theorem finalizeRes_status (k : Kind) (f : FrontSt) (st : ScanSt) :
    (finalizeRes k f st).status
      = if st.oflow then .OutOfRange
        else if st.any then .Ok else .NoDigitsConsumed := rfl

/-! ### Claim theorems -/

/-- Claim C1: for every width kind, every explicitly configured base
`b ∈ [2,36]` and every `v` representable in the kind, parsing the canonical
rendering of `v` in base `b` returns status `Ok`, value `v`, and a consumed
count equal to the number of rendered digit characters plus one when a sign
was rendered. -/
theorem claim_C1 (k : Kind) (hbits : 1 ≤ k.bits) (b : Nat) (hb2 : 2 ≤ b)
    (hb36 : b ≤ 36) (v : Int) (h1 : kmin k ≤ v) (h2 : v ≤ kmax k) :
    strtoi k (render b v) (b : Int)
      = ⟨v, (natDigits b v.natAbs).length + (if v < 0 then 1 else 0), .Ok⟩ :=
  strtoi_render_ok k hbits b hb2 hb36 v h1 h2

/-- Witness for C1 at the 32-bit signed kind, base 10, value `-123`:
the rendering `"-123"` parses back to `-123` with 4 bytes consumed. -/
theorem claim_C1_witness :
    strtoi K32s (render 10 (-123)) 10 = ⟨-123, 4, .Ok⟩ := by
  have h := claim_C1 K32s (by decide) 10 (by norm_num) (by norm_num) (-123)
    (by decide) (by decide)
  exact h.trans (by decide)

/-- Claim C3 (code bug): the digit classifier maps the byte `':'` (58),
which is not an alphanumeric character, to the value 10, which is below
base 11, so `strtoi` consumes `":"` as a digit in base 11 and returns
`Ok` with value 10 instead of stopping with `NoDigitsConsumed`. -/
theorem claim_C3_eval :
    digval 58 = 10 ∧ strtoi K32u [58] 11 = ⟨10, 1, .Ok⟩ := by decide

/-- Claim C4: for every base argument that is neither 0 nor in `[2,36]`
(1, 37 and all negative values included) and every input string, the engine
returns value 0, status `InvalidConfiguration` and consumed count 0; the
input is never inspected, as the result is the same for every `s`. -/
theorem claim_C4 (k : Kind) (s : List Nat) (ibase : Int)
    (h0 : ibase ≠ 0) (hr : ibase < 2 ∨ 36 < ibase) :
    strtoi k s ibase = ⟨0, 0, .InvalidConfiguration⟩ := by
  rw [strtoi, if_pos (by omega)]

/-- Witness for C4 at base 37. -/
theorem claim_C4_witness :
    strtoi K32u [49, 50, 51] 37 = ⟨0, 0, .InvalidConfiguration⟩ :=
  claim_C4 K32u [49, 50, 51] 37 (by norm_num) (Or.inr (by norm_num))

/-- Claim C10: on an unsigned width kind of `w` bits, an input `'-'`
followed by digits of magnitude `m` whose accumulation fits the kind
parses to `Ok` with the two's-complement modular negation
`(2 ^ w - m) % 2 ^ w`. -/
theorem claim_C10 (k : Kind) (hu : k.signed = false) (b : Nat) (hb2 : 2 ≤ b)
    (hb36 : b ≤ 36) (ds : List Nat) (hne : ds ≠ []) (hds : ∀ d ∈ ds, d < b)
    (hm : ds.foldl (fun a d => a * b + d) 0 ≤ 2 ^ k.bits - 1) :
    strtoi k (45 :: ds.map digitChar) (b : Int)
      = ⟨((2 ^ k.bits : Int)
            - ((ds.foldl (fun a d => a * b + d) 0 : Nat) : Int)) % 2 ^ k.bits,
          1 + ds.length, .Ok⟩ :=
  strtoi_minus_digits k hu b hb2 hb36 ds hne hds hm

/-- Witness for C10: `"-42"` on the 32-bit unsigned kind parses to
`2 ^ 32 - 42 = 4294967254`. -/
theorem claim_C10_witness :
    strtoi K32u (45 :: [4, 2].map digitChar) 10 = ⟨4294967254, 3, .Ok⟩ := by
  have h := claim_C10 K32u rfl 10 (by norm_num) (by norm_num) [4, 2]
    (by decide) (by decide) (by decide)
  exact h.trans (by decide)

/-- Counterexample for C2: on the 32-bit unsigned kind the rendering of one
unit below the minimum (`"-1"`) parses to `Ok` with the modular value
`2 ^ 32 - 1`, not to `OutOfRange` with the value clamped to the minimum 0. -/
theorem claim_C2_counterexample :
    strtoi K32u (render 10 (kmin K32u - 1)) 10 = ⟨4294967295, 2, .Ok⟩
    ∧ kmin K32u = 0 := by decide

/-- Counterexample for C5: `"0x:"` with base 16 — the byte `':'` is not a
hexadecimal digit, yet the engine classifies it below 16 and consumes it,
reporting 3 consumed bytes and value 10 instead of rolling back to the
leading `0`. -/
theorem claim_C5_counterexample :
    strtoi K32u [48, 120, 58] 16 = ⟨10, 3, .Ok⟩ := by decide

/-- Counterexample for C8: `"0x"` with base 16 consumes zero valid digits,
yet the consumed count is 1 (the offset just past the leading `0`), not the
offset 0 of the first character inspected. -/
theorem claim_C8_counterexample :
    strtoi K32u [48, 120] 16 = ⟨0, 1, .NoDigitsConsumed⟩ := by decide

/-- Claim C2 (amended): for every width kind of at least 2 bits:
(a) whenever the status is `OutOfRange` the value is the kind's maximum, or
the minimum when the kind is signed and the parsed sign was negative;
(b) the decimal renderings of the maximum and of the minimum parse to `Ok`
with exactly those values;
(c) the rendering of one unit above the maximum parses to `OutOfRange`
clamped to the maximum, and on a signed kind the rendering of one unit
below the minimum parses to `OutOfRange` clamped to the minimum; on an
unsigned kind, however, the rendering of one unit below the minimum
(`"-1"`) parses to `Ok` with the modular value `2 ^ w - 1`, not to
`OutOfRange`. -/
theorem claim_C2 (k : Kind) (hbits : 2 ≤ k.bits) :
    (∀ (s : List Nat) (ibase : Int),
        (strtoi k s ibase).status = .OutOfRange →
        (strtoi k s ibase).value
          = if k.signed && parsedNeg s then kmin k else kmax k)
    ∧ strtoi k (render 10 (kmax k)) 10
        = ⟨kmax k, (natDigits 10 (kmax k).natAbs).length, .Ok⟩
    ∧ strtoi k (render 10 (kmin k)) 10
        = ⟨kmin k, (natDigits 10 (kmin k).natAbs).length
            + (if kmin k < 0 then 1 else 0), .Ok⟩
    ∧ (strtoi k (render 10 (kmax k + 1)) 10).value = kmax k
    ∧ (strtoi k (render 10 (kmax k + 1)) 10).status = .OutOfRange
    ∧ (k.signed = true →
        (strtoi k (render 10 (kmin k - 1)) 10).value = kmin k
        ∧ (strtoi k (render 10 (kmin k - 1)) 10).status = .OutOfRange)
    ∧ (k.signed = false →
        (strtoi k (render 10 (kmin k - 1)) 10).value = kmax k
        ∧ (strtoi k (render 10 (kmin k - 1)) 10).status = .Ok) := by
  have h10 : ((10 : Nat) : Int) = (10 : Int) := by norm_num
  refine ⟨?_, ?_, ?_, ?_, ?_, ?_, ?_⟩
  · intro s ibase h
    by_cases hval : ibase < 0 ∨ 36 < ibase ∨ ibase = 1
    · rw [strtoi, if_pos hval] at h
      simp at h
    · push_neg at hval
      obtain ⟨hv1, hv2, hv3⟩ := hval
      have hib : ibase = ((ibase.toNat : Nat) : Int) :=
        (Int.toNat_of_nonneg (by linarith)).symm
      have hbr : ibase.toNat = 0 ∨ (2 ≤ ibase.toNat ∧ ibase.toNat ≤ 36) := by
        omega
      rw [hib, strtoi_natBase k s ibase.toNat hbr] at h ⊢
      rw [finalizeRes_oor k (by omega) (front s ibase.toNat) _ h,
        front_neg_eq_parsedNeg s ibase.toNat]
  · have h := strtoi_render_ok k (by omega) 10 (by norm_num) (by norm_num)
      (kmax k) (le_trans (kmin_nonpos k) (kmax_nonneg k)) (le_refl _)
    rw [h10] at h
    rw [h]
    have hnn : ¬(kmax k < 0) := not_lt.2 (kmax_nonneg k)
    simp [hnn]
  · have h := strtoi_render_ok k (by omega) 10 (by norm_num) (by norm_num)
      (kmin k) (le_refl _) (le_trans (kmin_nonpos k) (kmax_nonneg k))
    rw [h10] at h
    exact h
  · have h := strtoi_render_over_max k hbits 10 (by norm_num) (by norm_num)
    rw [h10] at h
    rw [h]
  · have h := strtoi_render_over_max k hbits 10 (by norm_num) (by norm_num)
    rw [h10] at h
    rw [h]
  · intro hs
    have h := strtoi_render_over_min k hbits hs 10 (by norm_num) (by norm_num)
    rw [h10] at h
    exact ⟨by rw [h], by rw [h]⟩
  · intro hs
    have h1b : (1 : Int) ≤ 2 ^ k.bits := by
      exact_mod_cast Nat.one_le_pow k.bits 2 (by omega)
    have h4 : (4 : Nat) ≤ 2 ^ k.bits := by
      calc (4 : Nat) = 2 ^ 2 := rfl
        _ ≤ 2 ^ k.bits := Nat.pow_le_pow_right (by omega) hbits
    have hk0 : kmin k = 0 := by simp [kmin, hs]
    have hfold : ([1] : List Nat).foldl (fun a d => a * 10 + d) 0 = 1 := rfl
    have hrender : render 10 (kmin k - 1)
        = 45 :: ([1] : List Nat).map digitChar := by
      rw [hk0, show (0 : Int) - 1 = -1 by ring, render, if_pos (by norm_num),
        show ((-1 : Int)).natAbs = 1 from rfl,
        natDigits_lt_base 10 1 (by norm_num)]
      rfl
    have hm1 : ([1] : List Nat).foldl (fun a d => a * 10 + d) 0
        ≤ 2 ^ k.bits - 1 := by
      rw [hfold]
      omega
    have h := strtoi_minus_digits k hs 10 (by norm_num) (by norm_num) [1]
      (by simp) (by decide) hm1
    rw [h10] at h
    rw [hrender, h]
    have hv : ((2 ^ k.bits : Int)
        - ((([1] : List Nat).foldl (fun a d => a * 10 + d) 0 : Nat) : Int))
          % 2 ^ k.bits = kmax k := by
      rw [hfold]
      rw [show (((1 : Nat)) : Int) = (1 : Int) from rfl]
      rw [Int.emod_eq_of_lt (by linarith) (by linarith)]
      simp [kmax, hs]
    exact ⟨hv, rfl⟩

/-- Witness for C2 at the 32-bit signed kind. -/
theorem claim_C2_witness :
    (∀ (s : List Nat) (ibase : Int),
        (strtoi K32s s ibase).status = .OutOfRange →
        (strtoi K32s s ibase).value
          = if K32s.signed && parsedNeg s then kmin K32s else kmax K32s)
    ∧ strtoi K32s (render 10 (kmax K32s)) 10
        = ⟨kmax K32s, (natDigits 10 (kmax K32s).natAbs).length, .Ok⟩
    ∧ strtoi K32s (render 10 (kmin K32s)) 10
        = ⟨kmin K32s, (natDigits 10 (kmin K32s).natAbs).length
            + (if kmin K32s < 0 then 1 else 0), .Ok⟩
    ∧ (strtoi K32s (render 10 (kmax K32s + 1)) 10).value = kmax K32s
    ∧ (strtoi K32s (render 10 (kmax K32s + 1)) 10).status = .OutOfRange
    ∧ (K32s.signed = true →
        (strtoi K32s (render 10 (kmin K32s - 1)) 10).value = kmin K32s
        ∧ (strtoi K32s (render 10 (kmin K32s - 1)) 10).status = .OutOfRange)
    ∧ (K32s.signed = false →
        (strtoi K32s (render 10 (kmin K32s - 1)) 10).value = kmax K32s
        ∧ (strtoi K32s (render 10 (kmin K32s - 1)) 10).status = .Ok) :=
  claim_C2 K32s (by decide)

/-- Claim C5 (amended): for every input made of whitespace, an optional
sign, then `'0'` and `'x'`/`'X'` where the next byte is classified at or
above 16 by the engine's digit classifier (because of the classifier's
quirk, the bytes `':' ';' '<' '=' '>' '?'` are classified below 16 and act
as hexadecimal digits, so they must be excluded along with `0-9a-fA-F`),
with configured base 0 or 16, the parse reports only the leading `'0'` as
consumed: the consumed count is the offset just past that `'0'`, value 0,
status `NoDigitsConsumed`. -/
theorem claim_C5 (k : Kind) (ws sgn rest : List Nat) (x b0 : Nat)
    (hws : ∀ c ∈ ws, ISSPACE c = true)
    (hsgn : sgn = [] ∨ sgn = [43] ∨ sgn = [45])
    (hx : x = 120 ∨ x = 88)
    (hb : b0 = 0 ∨ b0 = 16)
    (hrest : 16 ≤ digval (rest.headD 0)) :
    strtoi k (ws ++ (sgn ++ (48 :: x :: rest))) (b0 : Int)
      = ⟨0, ws.length + sgn.length + 1, .NoDigitsConsumed⟩ := by
  have hbr : b0 = 0 ∨ (2 ≤ b0 ∧ b0 ≤ 36) := by
    rcases hb with rfl | rfl
    · exact Or.inl rfl
    · exact Or.inr ⟨by norm_num, by norm_num⟩
  rw [strtoi_natBase k _ b0 hbr]
  have hcond : (48 :: x :: rest).headD 0 = 48
      ∧ (((48 :: x :: rest).tail.headD 0) ||| 32) = 120
      ∧ (b0 = 0 ∨ b0 = 16) := by
    refine ⟨rfl, ?_, hb⟩
    rcases hx with rfl | rfl <;>
      (simp only [List.tail_cons, List.headD_cons]; decide)
  rw [front_decomp ws sgn (48 :: x :: rest) b0 hws hsgn (by rfl)
    (by simp) (by simp), if_pos hcond]
  simp only [List.tail_cons]
  rw [scanLoop_stop k 16 _ _ rest _ 0 false false hrest]
  simp [finalizeRes, wrap_zero]

/-- Witness for C5: `" -0xg"` with base 16 consumes only `" -0"`,
reporting offset 3 (just past the `'0'`), value 0, `NoDigitsConsumed`. -/
theorem claim_C5_witness :
    strtoi K32u [32, 45, 48, 120, 103] 16 = ⟨0, 3, .NoDigitsConsumed⟩ := by
  have h := claim_C5 K32u [32] [45] [103] 120 16 (by decide)
    (Or.inr (Or.inr rfl)) (Or.inl rfl) (Or.inr rfl) (by decide)
  exact h.trans (by decide)

/-- Claim C6: with a well-formed base, whenever at least one byte of the
remaining input is a valid digit of the effective base, the consumed count
equals the offset of the byte immediately after the maximal run of valid
digits — independently of whether the overflow flag fires during the
scan. -/
theorem claim_C6 (k : Kind) (s : List Nat) (b : Nat)
    (hb : b = 0 ∨ (2 ≤ b ∧ b ≤ 36))
    (hrun : 0 < ((front s b).rest.takeWhile
        (fun c => decide (digval c < (front s b).base))).length) :
    (strtoi k s (b : Int)).consumed
      = (front s b).start
        + ((front s b).rest.takeWhile
            (fun c => decide (digval c < (front s b).base))).length := by
  rw [strtoi_natBase k s b hb]
  obtain ⟨hcur, hany, -, -⟩ := scanLoop_shape k (front s b).base
    ((ucutoff k (front s b).neg / (front s b).base : Nat) : Int)
    (ucutoff k (front s b).neg % (front s b).base)
    (front s b).rest (front s b).start 0 false false
  have hie : ((front s b).rest.takeWhile
      (fun c => decide (digval c < (front s b).base))).isEmpty = false := by
    cases hl : (front s b).rest.takeWhile
        (fun c => decide (digval c < (front s b).base)) with
    | nil =>
      rw [hl] at hrun
      simp at hrun
    | cons a t => rfl
  rw [hie] at hany
  have hanyT : (scanLoop k (front s b).base
      ((ucutoff k (front s b).neg / (front s b).base : Nat) : Int)
      (ucutoff k (front s b).neg % (front s b).base)
      (front s b).rest (front s b).start 0 false false).any = true := by
    rw [hany]
    rfl
  rw [finalizeRes_consumed, hanyT, hcur]
  simp

/-- Witness for C6: `" 12x"` with base 10 consumes through the last decimal
digit, offset 3. -/
theorem claim_C6_witness :
    (strtoi K32u [32, 49, 50, 120] 10).consumed = 3 := by
  have h := claim_C6 K32u [32, 49, 50, 120] 10
    (Or.inr ⟨by norm_num, by norm_num⟩) (by decide)
  exact h.trans (by decide)

/-- Claim C7: with configured base 0, the effective base is 16 when the
post-whitespace, post-sign input starts with `0x`/`0X`, 8 when it starts
with `0` not followed by `x`/`X`, and 10 otherwise; in particular
`"  -0777"` with base 0 on any signed kind of at least 10 bits parses to
`Ok`, value `-511`, with the whole string consumed. -/
theorem claim_C7 :
    (∀ (ws sgn rest : List Nat) (c cp : Nat),
      (∀ x ∈ ws, ISSPACE x = true) →
      (sgn = [] ∨ sgn = [43] ∨ sgn = [45]) →
      ((front (ws ++ (sgn ++ (48 :: 120 :: rest))) 0).base = 16
        ∧ (front (ws ++ (sgn ++ (48 :: 88 :: rest))) 0).base = 16
        ∧ ((c ||| 32) ≠ 120 →
            (front (ws ++ (sgn ++ (48 :: c :: rest))) 0).base = 8)
        ∧ (ISSPACE cp = false → cp ≠ 43 → cp ≠ 45 → cp ≠ 48 →
            (front (ws ++ (sgn ++ (cp :: rest))) 0).base = 10)))
    ∧ (∀ k : Kind, k.signed = true → 10 ≤ k.bits →
        strtoi k [32, 32, 45, 48, 55, 55, 55] 0 = ⟨-511, 7, .Ok⟩) := by
  constructor
  · intro ws sgn rest c cp hws hsgn
    refine ⟨?_, ?_, ?_, ?_⟩
    · rw [front_decomp ws sgn (48 :: 120 :: rest) 0 hws hsgn (by rfl)
        (by simp) (by simp)]
      rw [if_pos ⟨rfl, by simp only [List.tail_cons, List.headD_cons]; decide,
        Or.inl rfl⟩]
    · rw [front_decomp ws sgn (48 :: 88 :: rest) 0 hws hsgn (by rfl)
        (by simp) (by simp)]
      rw [if_pos ⟨rfl, by simp only [List.tail_cons, List.headD_cons]; decide,
        Or.inl rfl⟩]
    · intro hc
      rw [front_decomp ws sgn (48 :: c :: rest) 0 hws hsgn (by rfl)
        (by simp) (by simp)]
      rw [if_neg (by
        rintro ⟨-, h2, -⟩
        simp only [List.tail_cons, List.headD_cons] at h2
        exact hc h2)]
      simp
    · intro hsp h43 h45 h48
      rw [front_decomp ws sgn (cp :: rest) 0 hws hsgn
        (by simpa using hsp) (by simpa using h43) (by simpa using h45)]
      rw [if_neg (by
        rintro ⟨h1, -, -⟩
        simp only [List.headD_cons] at h1
        exact h48 h1)]
      simp [h48]
  · intro k hs hb10
    have h2p : (512 : Nat) ≤ 2 ^ (k.bits - 1) := by
      calc (512 : Nat) = 2 ^ 9 := rfl
        _ ≤ 2 ^ (k.bits - 1) := Nat.pow_le_pow_right (by omega) (by omega)
    rw [show (0 : Int) = ((0 : Nat) : Int) from rfl,
      strtoi_natBase k _ 0 (Or.inl rfl)]
    rw [show front [32, 32, 45, 48, 55, 55, 55] (0 : Nat)
      = ⟨8, true, false, 3, ([0, 7, 7, 7] : List Nat).map digitChar⟩
      from by decide]
    dsimp only
    rw [scan_digits k 8 (ucutoff k true) (by norm_num) (by norm_num)
      (ucutoff_le k true) [0, 7, 7, 7] (by simp) (by decide)
      (by
        rw [show ([0, 7, 7, 7] : List Nat).foldl (fun a d => a * 8 + d) 0
          = 511 from rfl]
        simp only [ucutoff, hs, if_true]
        omega) 3]
    have hval : wrap k (-wrap k (511 : Int)) = -511 := by
      rw [wrap_neg_wrap]
      apply wrap_eq_self_of_neg k _ hs (by omega)
      · have hc : ((512 : Nat) : Int) ≤ ((2 ^ (k.bits - 1) : Nat) : Int) := by
          exact_mod_cast h2p
        push_cast at hc
        linarith
      · norm_num
    simp [finalizeRes, hval]

/-- Witness for C7 at concrete inputs: base detection on `" 0x"` shapes and
the octal example on the 32-bit signed kind. -/
theorem claim_C7_witness :
    ((front ([32] ++ ([45] ++ (48 :: 120 :: []))) 0).base = 16
      ∧ (front ([32] ++ ([45] ++ (48 :: 88 :: []))) 0).base = 16
      ∧ (((55 : Nat) ||| 32) ≠ 120 →
          (front ([32] ++ ([45] ++ (48 :: 55 :: []))) 0).base = 8)
      ∧ (ISSPACE 49 = false → (49 : Nat) ≠ 43 → (49 : Nat) ≠ 45
          → (49 : Nat) ≠ 48 →
          (front ([32] ++ ([45] ++ (49 :: []))) 0).base = 10))
    ∧ strtoi K32s [32, 32, 45, 48, 55, 55, 55] 0 = ⟨-511, 7, .Ok⟩ := by
  refine ⟨claim_C7.1 [32] [45] [] 55 49 (by decide) (Or.inr (Or.inr rfl)),
    claim_C7.2 K32s rfl (by decide)⟩

/-- Claim C8 (amended): with a well-formed base, when the remaining input
at the digit loop contains no valid digit of the effective base, the result
is `NoDigitsConsumed` with value 0 and consumed count 0 — except when a
`0x` prefix was tentatively consumed, in which case the consumed count is
the offset just past the leading `0` (the `0x` rollback of C5); e.g.
`"abc"` with base 10 gives consumed count 0. -/
theorem claim_C8 (k : Kind) (s : List Nat) (b : Nat)
    (hb : b = 0 ∨ (2 ≤ b ∧ b ≤ 36))
    (hrun : ((front s b).rest.takeWhile
        (fun c => decide (digval c < (front s b).base))).length = 0) :
    strtoi k s (b : Int)
      = ⟨0, if (front s b).hex then (front s b).start - 1 else 0,
          .NoDigitsConsumed⟩ := by
  have hstop : scanLoop k (front s b).base
      ((ucutoff k (front s b).neg / (front s b).base : Nat) : Int)
      (ucutoff k (front s b).neg % (front s b).base)
      (front s b).rest (front s b).start 0 false false
      = ⟨(front s b).start, 0, false, false⟩ := by
    cases hl : (front s b).rest with
    | nil => rfl
    | cons c r =>
      have hnd : ¬(digval c < (front s b).base) := by
        intro hlt
        rw [hl] at hrun
        simp [List.takeWhile_cons, hlt] at hrun
      refine scanLoop_stop k _ _ _ _ _ _ _ _ ?_
      simp only [List.headD_cons]
      omega
  rw [strtoi_natBase k s b hb, hstop]
  simp [finalizeRes, wrap_zero]

/-- Witness for C8: `"abc"` with base 10 yields value 0, consumed count 0,
status `NoDigitsConsumed`. -/
theorem claim_C8_witness :
    strtoi K32u [97, 98, 99] 10 = ⟨0, 0, .NoDigitsConsumed⟩ := by
  have h := claim_C8 K32u [97, 98, 99] 10 (Or.inr ⟨by norm_num, by norm_num⟩)
    (by decide)
  exact h.trans (by decide)

theorem strtoi_value_status_shift (k : Kind) (s s2 : List Nat) (b : Nat)
    (hfront : front s2 b
      = ⟨(front s b).base, (front s b).neg, (front s b).hex,
          (front s b).start + 1, (front s b).rest⟩)
    (hb : b = 0 ∨ (2 ≤ b ∧ b ≤ 36)) :
    (strtoi k s2 (b : Int)).value = (strtoi k s (b : Int)).value
    ∧ (strtoi k s2 (b : Int)).status = (strtoi k s (b : Int)).status := by
  rw [strtoi_natBase k s2 b hb, strtoi_natBase k s b hb, hfront]
  dsimp only
  rw [scanLoop_shift k (front s b).base
    ((ucutoff k (front s b).neg / (front s b).base : Nat) : Int)
    (ucutoff k (front s b).neg % (front s b).base)
    (front s b).rest (front s b).start 1 0 false false]
  constructor
  · simp [finalizeRes]
  · simp [finalizeRes]

/-- Claim C9: prepending one whitespace byte to any input, or a redundant
`'+'` to an input that starts with neither whitespace nor a sign, never
changes the returned value or status — only the consumed count may
differ. -/
theorem claim_C9 (k : Kind) (s : List Nat) (ibase : Int) (w : Nat)
    (hw : ISSPACE w = true) :
    ((strtoi k (w :: s) ibase).value = (strtoi k s ibase).value
      ∧ (strtoi k (w :: s) ibase).status = (strtoi k s ibase).status)
    ∧ (ISSPACE (s.headD 0) = false → s.headD 0 ≠ 43 → s.headD 0 ≠ 45 →
        (strtoi k (43 :: s) ibase).value = (strtoi k s ibase).value
        ∧ (strtoi k (43 :: s) ibase).status = (strtoi k s ibase).status) := by
  by_cases hval : ibase < 0 ∨ 36 < ibase ∨ ibase = 1
  · refine ⟨⟨?_, ?_⟩, fun _ _ _ => ⟨?_, ?_⟩⟩ <;> simp [strtoi, if_pos hval]
  · push_neg at hval
    obtain ⟨hv1, hv2, hv3⟩ := hval
    lift ibase to Nat using hv1 with b hb
    have hbr : b = 0 ∨ (2 ≤ b ∧ b ≤ 36) := by omega
    constructor
    · exact strtoi_value_status_shift k s (w :: s) b
        (front_cons_space w s b hw) hbr
    · intro h1 h2 h3
      exact strtoi_value_status_shift k s (43 :: s) b
        (front_plusSign s b h1 h2 h3) hbr

/-- Witness for C9: a space or a `'+'` prepended to `"1"` leaves value and
status unchanged. -/
theorem claim_C9_witness :
    ((strtoi K32s [32, 49] 10).value = (strtoi K32s [49] 10).value
      ∧ (strtoi K32s [32, 49] 10).status = (strtoi K32s [49] 10).status)
    ∧ ((strtoi K32s [43, 49] 10).value = (strtoi K32s [49] 10).value
      ∧ (strtoi K32s [43, 49] 10).status = (strtoi K32s [49] 10).status) := by
  have h := claim_C9 K32s [49] 10 32 (by decide)
  exact ⟨h.1, h.2 (by decide) (by decide) (by decide)⟩
